import Mathlib

/-!
Shallow embedding of the `dgt_parser` ingestion-and-persistence engine:
the TMX data model (`src/tmx_parser.rs`), the language-inclusion
predicates, the dynamic-schema transactional SQLite writer
(`src/handlers/sqlite_db.rs`), the flat-script SQL writer
(`src/handlers/sql.rs`), and the pipeline loop of `src/main.rs`.

Modelling conventions:
* Rust `String` is Lean `String`; all string transformations are done on
  the underlying character list so that proofs can evaluate them.
* Machine integers (`u32` ids and sequence numbers) are `Nat`; the one
  place the source truncates (`i as u32` in `main.rs`) is modelled with
  an explicit `% 2 ^ 32`.
* Fallible Rust functions returning `Result` become functions returning
  the mutated handler state together with an `Except String` result,
  mirroring `&mut self` receivers whose mutations survive an early
  `bail!`.
* The SQLite store itself is modelled by two in-state tables
  (`db_documents`, `db_translation_units`); store operations are modelled
  as succeeding, since a store failure is specified as fatal and carries
  no further behaviour.
-/

deriving instance DecidableEq for Except

namespace DGT

/-- One `<tuv>` element: one language realization of a translation unit
(`src/tmx_parser.rs`, `struct Tuv`).  A missing `lang` attribute
deserializes to the empty string (`#[serde(default)]`). -/
structure Tuv where
  lang : String
  content : String
deriving DecidableEq

/-- One `<prop>` element: key/value metadata of a translation unit
(`src/tmx_parser.rs`, `struct Prop`; named `Prop'` because `Prop` is a
Lean keyword). -/
structure Prop' where
  key : String
  value : String
deriving DecidableEq

/-- One `<tu>` element (`src/tmx_parser.rs`, `struct TranslationUnit`). -/
structure TranslationUnit where
  props : List Prop'
  segments : List Tuv
deriving DecidableEq

/-- Language filter supplied at startup (`src/types.rs`,
`enum RequestedLangs`; `src/tmx_parser.rs` refers to the same type as
`IncludedLangs`). -/
inductive RequestedLangs where
  | Unlimited : RequestedLangs
  | Some : List String → RequestedLangs
  | Each : List String → RequestedLangs
deriving DecidableEq

/-- Alias used by `src/tmx_parser.rs` for [RequestedLangs]. -/
abbrev IncludedLangs := RequestedLangs

namespace TranslationUnit

/-- `TranslationUnit::doc_name` (`src/tmx_parser.rs`): value of the first
property whose key is the reserved marker `Txt::Doc. No.`. -/
def doc_name (tu : TranslationUnit) : Option String :=
  match (tu.props.filter (fun el => el.key == "Txt::Doc. No.")).head? with
  | some name => some name.value
  | none => none

/-- `TranslationUnit::contains_each_lang` (`src/tmx_parser.rs`): the unit
has a segment in each of the requested languages.  The source folds over
the requested languages with an early-false accumulator; the inner loop
over segments with early `return true` is `List.any`. -/
def contains_each_lang (tu : TranslationUnit) (langs : IncludedLangs) : Bool :=
  match langs with
  | .Unlimited => true
  | .Each ls | .Some ls =>
    ls.foldl
      (fun acc lang =>
        if !acc then false
        else tu.segments.any (fun segment => segment.lang == lang))
      true

/-- `TranslationUnit::contains_any_lang` (`src/tmx_parser.rs`): the unit
has a segment in at least one of the requested languages (two nested
loops with early `return true`). -/
def contains_any_lang (tu : TranslationUnit) (langs : IncludedLangs) : Bool :=
  match langs with
  | .Unlimited => true
  | .Each ls | .Some ls =>
    ls.any (fun lang => tu.segments.any (fun segment => segment.lang == lang))

end TranslationUnit

/-- `TRANSACTION_SIZE` (`src/handlers/sqlite_db.rs`): how many translation
units to insert in one batch. -/
def TRANSACTION_SIZE : Nat := 20000

/-- State of the transactional SQLite writer
(`src/handlers/sqlite_db.rs`, `struct Handler`) together with the two
tables of the store it owns.  `queries` holds the pending batch of
row-insert operations as (SQL text, positional parameters) pairs, exactly
what the source accumulates. -/
structure Handler where
  /-- Language columns already added to `translation_units`. -/
  language_columns_in_db : List String
  /-- Document-name → surrogate-id cache (`HashMap<String, u32>`,
  modelled as an association list whose keys stay distinct because an
  entry is only ever added after a failed lookup). -/
  docs_in_db : List (String × Nat)
  /-- Pending batch of insert queries. -/
  queries : List (String × List String)
  /-- Language filter from the user. -/
  requested_langs : RequestedLangs
  /-- Memo of language codes already validated. -/
  valid_lang_codes : List String
  /-- Rows of the `documents` table: (surrogate id, name). -/
  db_documents : List (Nat × String)
  /-- Committed rows of the `translation_units` table. -/
  db_translation_units : List (String × List String)
deriving DecidableEq

/-- `Handler::new` + `setup` (`src/handlers/sqlite_db.rs`): fresh caches
over freshly (re)created empty tables. -/
def Handler.new (requested_langs : RequestedLangs) : Handler :=
  { language_columns_in_db := []
    docs_in_db := []
    queries := []
    requested_langs := requested_langs
    valid_lang_codes := []
    db_documents := []
    db_translation_units := [] }

/-- A character matched by the regex class `\w` as used in the language
column pattern.  Rust's `regex` interprets `\w` as Unicode word
characters; language codes in this corpus are ASCII, and the model
restricts `\w` to the ASCII word characters. -/
def isWordChar (c : Char) : Bool :=
  c.isAlphanum || c == '_'

/-- The language-code regex `^\w{2}(-|_)(\w|\d){2}$` of
`Handler::lang_code_to_db_column` (`src/handlers/sqlite_db.rs`): exactly
two word characters, one separator, two word characters (`\d` is a subset
of `\w`). -/
def langCodeMatches (s : String) : Bool :=
  match s.data with
  | [a, b, sep, c, d] =>
    isWordChar a && isWordChar b && (sep == '-' || sep == '_') &&
      isWordChar c && isWordChar d
  | _ => false

/-- The normalization step of `lang_code_to_db_column`:
`to_ascii_lowercase().replace("-", "_")`, performed characterwise (the
replaced pattern is a single character). -/
def normalize_lang_code (s : String) : String :=
  String.mk (s.data.map (fun c =>
    let lc := c.toLower
    if lc == '-' then '_' else lc))

/-- `Handler::lang_is_eligible` (`src/handlers/sqlite_db.rs`): should a
text in this language be included in the output? -/
def Handler.lang_is_eligible (s : Handler) (lang_code : String) : Bool :=
  match s.requested_langs with
  | .Unlimited => true
  | .Each langs | .Some langs => langs.contains lang_code

/-- `Handler::lang_code_to_db_column` (`src/handlers/sqlite_db.rs`):
normalize a language code to a column identifier, memoizing codes that
pass the validation regex and failing on codes that do not. -/
def Handler.lang_code_to_db_column (s : Handler) (lang_code : String) :
    Handler × Except String String :=
  let code := normalize_lang_code lang_code
  if s.valid_lang_codes.contains code then
    (s, Except.ok code)
  else if langCodeMatches code then
    ({ s with valid_lang_codes := s.valid_lang_codes ++ [code] }, Except.ok code)
  else
    (s, Except.error ("Error: invalid language code: " ++ code ++ "."))

/-- `Handler::add_lang_column` (`src/handlers/sqlite_db.rs`): issue the
`ALTER TABLE` (modelled as succeeding) and record the column in the
registry. -/
def Handler.add_lang_column (s : Handler) (column : String) : Handler :=
  { s with language_columns_in_db := s.language_columns_in_db ++ [column] }

/-- `HashMap::get` on the document cache. -/
def Handler.docsLookup (s : Handler) (doc_name : String) : Option Nat :=
  (s.docs_in_db.find? (fun p => p.1 == doc_name)).map (fun p => p.2)

/-- `Handler::insert_document` (`src/handlers/sqlite_db.rs`): if the
unit's document name is not yet cached, insert a `documents` row and
cache the id the store assigned it (SQLite `INTEGER PRIMARY KEY`
auto-assignment: one more than the current row count, since rows are only
ever inserted). -/
def Handler.insert_document (s : Handler) (translation_unit : TranslationUnit) : Handler :=
  match translation_unit.doc_name with
  | some doc_name =>
    match s.docsLookup doc_name with
    | some _ => s
    | none =>
      let id := s.db_documents.length + 1
      { s with
        db_documents := s.db_documents ++ [(id, doc_name)]
        docs_in_db := s.docs_in_db ++ [(doc_name, id)] }
  | none => s

/-- `repeat_vars` (`src/handlers/sqlite_db.rs`): a comma-separated
sequence of `count` placeholders.  The source asserts `count != 0`; its
only call site passes at least 2, so the model's value at 0 (the empty
string) is never relied on. -/
def repeat_vars (count : Nat) : String :=
  String.intercalate "," (List.replicate count "?")

/-- The column-on-first-sight check inside the segment loop of
`Handler::create_translation_unit_insert_query`
(`src/handlers/sqlite_db.rs`, lines 149–151): add the language column
unless the registry already has it. -/
def Handler.bimStep (s : Handler) (lang_code : String) : Handler :=
  if !s.language_columns_in_db.contains lang_code then
    s.add_lang_column lang_code
  else s

/-- The segment loop of `Handler::create_translation_unit_insert_query`
(`src/handlers/sqlite_db.rs`, lines 142–157): for each segment, skip it
if its language is not eligible, otherwise convert the language code
(failing the whole unit on an invalid code), add the language column on
first sight, and collect a `(column, content)` entry of the insert map
(the `StringValue` arm formats back to the content itself). -/
def Handler.buildInsertMap (s : Handler) (segments : List Tuv) :
    Handler × Except String (List (String × String)) :=
  match segments with
  | [] => (s, Except.ok [])
  | el :: rest =>
    if !s.lang_is_eligible el.lang then
      s.buildInsertMap rest
    else
      match s.lang_code_to_db_column el.lang with
      | (s1, Except.error e) => (s1, Except.error e)
      | (s1, Except.ok lang_code) =>
        match (s1.bimStep lang_code).buildInsertMap rest with
        | (s3, Except.error e) => (s3, Except.error e)
        | (s3, Except.ok tail) => (s3, Except.ok ((lang_code, el.content) :: tail))

/-- `Handler::create_translation_unit_insert_query`
(`src/handlers/sqlite_db.rs`): build one row-insert operation for the
unit.  The insert map is the language entries followed by
`sequential_number` and `document_id`; the returned pair is the SQL text
with placeholders and the formatted parameter values, exactly as the
source returns `(String, ParamsFromIter<Vec<String>>)`.  The source
`unwrap`s the document-cache lookup (it panics if the document was not
inserted first, which `handle_translation_unit` guarantees); the model
uses a default of 0 on that unreachable path. -/
def Handler.create_translation_unit_insert_query (s : Handler)
    (tu : TranslationUnit) (sequential_number_in_doc : Nat) :
    Handler × Except String (String × List String) :=
  match tu.doc_name with
  | none => (s, Except.error "Error: no document ID provided for the translation segment.")
  | some doc_name =>
    match s.buildInsertMap tu.segments with
    | (s1, Except.error e) => (s1, Except.error e)
    | (s1, Except.ok langEntries) =>
      let insert_map : List (String × String) :=
        langEntries ++
          [("sequential_number", toString sequential_number_in_doc),
           ("document_id", toString ((s1.docsLookup doc_name).getD 0))]
      let columns : List String := insert_map.map (fun el => el.1)
      let values : List String := insert_map.map (fun el => el.2)
      let query :=
        "INSERT INTO translation_units (" ++ String.intercalate "," columns ++
          ") VALUES (" ++ repeat_vars values.length ++ ");"
      (s1, Except.ok (query, values))

/-- `Handler::commit_translation_units` (`src/handlers/sqlite_db.rs`):
execute the pending batch inside one transaction (modelled as appending
the batch to the committed table) and clear the batch. -/
def Handler.commit_translation_units (s : Handler) : Handler :=
  { s with
    db_translation_units := s.db_translation_units ++ s.queries
    queries := [] }

/-- `Handler::handle_translation_unit` (`src/handlers/sqlite_db.rs`):
insert the parent document if needed, build the row-insert operation,
append it to the pending batch, and commit the batch once it holds more
than `TRANSACTION_SIZE` operations. -/
def Handler.handle_translation_unit (s : Handler) (tu : TranslationUnit)
    (sequential_number_in_doc : Nat) : Handler × Except String Unit :=
  let s1 := s.insert_document tu
  match s1.create_translation_unit_insert_query tu sequential_number_in_doc with
  | (s2, Except.error e) => (s2, Except.error e)
  | (s2, Except.ok query) =>
    let s3 := { s2 with queries := s2.queries ++ [query] }
    if s3.queries.length > TRANSACTION_SIZE then
      (s3.commit_translation_units, Except.ok ())
    else
      (s3, Except.ok ())

/-- `impl Drop for Handler` (`src/handlers/sqlite_db.rs`): the teardown
path commits any remaining pending batch (and `unwrap`s the result,
which in the model always succeeds). -/
def Handler.drop (s : Handler) : Handler :=
  s.commit_translation_units

/-- The per-unit filter of the pipeline loop in `src/main.rs` (lines
66–76): a unit is forwarded to the writer unless a `Some` filter fails
`contains_any_lang` or an `Each` filter fails `contains_each_lang`. -/
def is_included (tu : TranslationUnit) (requested_langs : RequestedLangs) : Bool :=
  match requested_langs with
  | .Unlimited => true
  | .Some _ => tu.contains_any_lang requested_langs
  | .Each _ => tu.contains_each_lang requested_langs

/-- The body of the `for (i, tu) in body.translation_units.into_iter().enumerate()`
loop of `src/main.rs`, carrying the enumeration index `i`: skip units the
filter excludes, otherwise `handler.handle(tu, i as u32)` — the trait
impl `unwrap`s the writer's result, aborting the run on error, which the
model renders by stopping with the error.  The `as u32` cast is the
explicit `% 2 ^ 32`. -/
def runDocAux (s : Handler) (tus : List TranslationUnit) (i : Nat) :
    Handler × Except String Unit :=
  match tus with
  | [] => (s, Except.ok ())
  | tu :: rest =>
    let skip :=
      (match s.requested_langs with
       | .Some _ => !tu.contains_any_lang s.requested_langs
       | _ => false) ||
      (match s.requested_langs with
       | .Each _ => !tu.contains_each_lang s.requested_langs
       | _ => false)
    if skip then
      runDocAux s rest (i + 1)
    else
      match s.handle_translation_unit tu (i % 2 ^ 32) with
      | (s1, Except.ok _) => runDocAux s1 rest (i + 1)
      | (s1, Except.error e) => (s1, Except.error e)

/-- Processing of one parsed document body by `main` (`src/main.rs`):
the unit loop starting at index 0. -/
def runDocument (s : Handler) (tus : List TranslationUnit) :
    Handler × Except String Unit :=
  runDocAux s tus 0

/-- Processing of a whole corpus: the document loop of `main`
(`src/main.rs`), one `runDocument` per parsed body, threading the
writer's state. -/
def runCorpus (s : Handler) (docs : List (List TranslationUnit)) :
    Handler × Except String Unit :=
  match docs with
  | [] => (s, Except.ok ())
  | d :: rest =>
    match runDocument s d with
    | (s1, Except.ok _) => runCorpus s1 rest
    | (s1, Except.error e) => (s1, Except.error e)

/-- All rows the writer is responsible for, committed rows first then the
pending batch, in handling order (committing moves the batch to the
table without reordering, so this list is append-only across a run). -/
def pcRows (s : Handler) : List (String × List String) :=
  s.db_translation_units ++ s.queries

/-- The `sequential_number` parameter of a built row-insert operation:
the insert map always ends with the sequence number followed by the
document id, so it is the second value from the end. -/
def seqParam (q : String × List String) : String :=
  match q.2.reverse with
  | _ :: sq :: _ => sq
  | _ => ""

/-- The `document_id` parameter of a built row-insert operation: the last
value of the parameter list. -/
def docIdParam (q : String × List String) : String :=
  match q.2.reverse with
  | d :: _ => d
  | _ => ""

/-- `INSERT_SIZE` (`src/handlers/sql.rs`): how many translation units to
insert in one batch of the flat-script writer. -/
def INSERT_SIZE : Nat := 20000

/-- Modelled from the spec: `TranslationUnit::get_lang`, called by
`Handler::commit_batch` in `src/handlers/sql.rs`, is not defined
anywhere under `src/`.  Per the spec's "first segment per language wins"
policy it returns the first segment whose language code equals the given
one, if any. -/
def TranslationUnit.get_lang (tu : TranslationUnit) (lang : String) : Option Tuv :=
  tu.segments.find? (fun segment => segment.lang == lang)

/-- `lang_code_to_db_column` (`src/handlers/sql.rs`): lowercase and fold
`-` to `_`, with no validation. -/
def sql_lang_code_to_db_column (lang_code : String) : String :=
  normalize_lang_code lang_code

/-- State of the flat-script SQL writer (`src/handlers/sql.rs`,
`struct Handler`).  The output file is not part of the state; each
operation instead returns the text it appends to the file. -/
structure SqlHandler where
  /-- Pending batch of (translation unit, sequence number) pairs. -/
  incoming_batch : List (TranslationUnit × Nat)
  /-- Raw language codes seen in the current batch, in order of first
  appearance. -/
  langs_in_batch : List String
  /-- Raw language codes whose columns were already emitted. -/
  lang_columns : List String
deriving DecidableEq

/-- The quote escaping of `Handler::commit_batch`
(`src/handlers/sql.rs`): `content.replace("'", "''")`, performed
characterwise (the replaced pattern is a single character). -/
def escape_single_quotes (s : String) : String :=
  String.mk (s.data.foldr
    (fun c acc => if c == '\'' then c :: c :: acc else c :: acc) [])

/-- The per-unit tuple rendered inside the `VALUES` list by
`Handler::commit_batch` (`src/handlers/sql.rs`): sequence number, quoted
document name, then one quoted (quote-doubled) text or `NULL` per batch
language.  The source `unwrap`s `doc_name()` (panicking on a nameless
unit); the model uses the empty name on that path. -/
def sqlRowText (langs_in_batch : List String) (tu : TranslationUnit) (seq : Nat)
    (first : Bool) : String :=
  (if first then "" else ",") ++ "\n(" ++ toString seq ++ ", '" ++
    (tu.doc_name.getD "") ++ "'" ++
    (langs_in_batch.map (fun lang =>
      match tu.get_lang lang with
      | some tuv => ",'" ++ escape_single_quotes tuv.content ++ "'"
      | none => ",NULL")).foldl (· ++ ·) "" ++ ")"

/-- The row loop of `Handler::commit_batch` over the pending batch, with
the `counter != 0` comma logic. -/
def sqlRowsText (langs_in_batch : List String) (batch : List (TranslationUnit × Nat))
    (first : Bool) : String :=
  match batch with
  | [] => ""
  | (tu, seq) :: rest =>
    sqlRowText langs_in_batch tu seq first ++ sqlRowsText langs_in_batch rest false

/-- The `ALTER TABLE` lines `Handler::commit_batch` emits for batch
languages whose column does not exist yet, together with the updated
column registry (which records the raw code while the emitted column
name is normalized). -/
def sqlAlterText (lang_columns : List String) (langs_in_batch : List String) :
    List String × String :=
  match langs_in_batch with
  | [] => (lang_columns, "")
  | lang :: rest =>
    if !lang_columns.contains lang then
      let (cols, txt) := sqlAlterText (lang_columns ++ [lang]) rest
      (cols, "ALTER TABLE translation_units ADD COLUMN " ++
        sql_lang_code_to_db_column lang ++ " TEXT;\n" ++ txt)
    else
      sqlAlterText lang_columns rest

/-- `Handler::commit_batch` (`src/handlers/sql.rs`): emit missing
`ALTER TABLE` lines, then a single `INSERT` statement listing every
pending row, then clear the batch and its language list.  Returns the
new state and the emitted text. -/
def SqlHandler.commit_batch (s : SqlHandler) : SqlHandler × String :=
  let (cols, alters) := sqlAlterText s.lang_columns s.langs_in_batch
  let langs_list :=
    String.intercalate "," (s.langs_in_batch.map sql_lang_code_to_db_column)
  let text :=
    alters ++
    "INSERT INTO translation_units (sequential_number, document_id, " ++
      langs_list ++ ") VALUES " ++
    sqlRowsText s.langs_in_batch s.incoming_batch true ++ ";\n"
  ({ incoming_batch := [], langs_in_batch := [], lang_columns := cols }, text)

/-- `impl TranslationUnitHandler for Handler::handle`
(`src/handlers/sql.rs`): record unseen batch languages, push the unit,
and commit once the batch reaches exactly `INSERT_SIZE`. -/
def SqlHandler.handle (s : SqlHandler) (translation_unit : TranslationUnit)
    (sequential_number_in_doc : Nat) : SqlHandler × String :=
  let langs :=
    translation_unit.segments.foldl
      (fun acc seg => if !acc.contains seg.lang then acc ++ [seg.lang] else acc)
      s.langs_in_batch
  let s1 := { s with
    langs_in_batch := langs
    incoming_batch := s.incoming_batch ++ [(translation_unit, sequential_number_in_doc)] }
  if s1.incoming_batch.length == INSERT_SIZE then
    s1.commit_batch
  else
    (s1, "")

/-- `impl Drop for Handler` (`src/handlers/sql.rs`): teardown commits the
pending batch unconditionally. -/
def SqlHandler.drop (s : SqlHandler) : SqlHandler × String :=
  s.commit_batch

/-- Every memoized language code actually passed the validation regex —
an invariant of the `valid_lang_codes` memo, trivially true of a fresh
handler. -/
def cacheOk (s : Handler) : Prop :=
  ∀ c ∈ s.valid_lang_codes, langCodeMatches c = true

/-- The row-insert operation `handle_translation_unit` builds for a unit
(the `Ok` payload of `create_translation_unit_insert_query` after
`insert_document`); used to state what one successful `handle` appends. -/
def builtRow (s : Handler) (tu : TranslationUnit) (n : Nat) : String × List String :=
  match (s.insert_document tu).create_translation_unit_insert_query tu n with
  | (_, Except.ok q) => q
  | (_, Except.error _) => ("", [])

/-- First-occurrence deduplication with an explicit already-seen list:
the order in which `insert_document` creates document rows. -/
def dedupFirstAux (seen : List String) : List String → List String
  | [] => []
  | n :: rest =>
    if seen.contains n then dedupFirstAux seen rest
    else n :: dedupFirstAux (seen ++ [n]) rest

/-- First-occurrence deduplication of a list of document names. -/
def dedupFirst (l : List String) : List String :=
  dedupFirstAux [] l

/-- Document names of the units the pipeline filter accepts, in order. -/
def acceptedNames (req : RequestedLangs) (tus : List TranslationUnit) : List String :=
  (tus.filter (fun tu => is_included tu req)).filterMap TranslationUnit.doc_name

/-- The parts of the writer state that the segment loop never touches:
pending batch, committed rows, document cache, documents table, filter. -/
def dbView (s : Handler) :
    List (String × List String) × List (String × List String) ×
      List (String × Nat) × List (Nat × String) × RequestedLangs :=
  (s.queries, s.db_translation_units, s.docs_in_db, s.db_documents, s.requested_langs)

/-- The document cache mirrors the `documents` table (key/id swapped) and
table names are distinct — the invariant `insert_document` maintains. -/
def docsInv (s : Handler) : Prop :=
  s.docs_in_db = s.db_documents.map (fun r => (r.2, r.1)) ∧
    (s.db_documents.map Prod.snd).Nodup

/-- Concrete fixture: a one-segment English unit of document `D`, used to
drive concrete batch scenarios. -/
def tuEN : TranslationUnit :=
  ⟨[⟨"Txt::Doc. No.", "D"⟩], [⟨"EN-GB", "x"⟩]⟩

/-- Concrete fixture: a one-segment Polish unit of document `D`. -/
def tuPL : TranslationUnit :=
  ⟨[⟨"Txt::Doc. No.", "D"⟩], [⟨"PL-01", "y"⟩]⟩

/-- Concrete fixture: a unit of document `D` with two `EN-GB` segments. -/
def tuDup : TranslationUnit :=
  ⟨[⟨"Txt::Doc. No.", "D"⟩], [⟨"EN-GB", "a"⟩, ⟨"EN-GB", "b"⟩]⟩

/-- Concrete fixture: a unit of document `D` with one eligible `EN-GB`
segment and one segment whose code `X` fails the column grammar. -/
def tuMixed : TranslationUnit :=
  ⟨[⟨"Txt::Doc. No.", "D"⟩], [⟨"EN-GB", "hello"⟩, ⟨"X", "bad"⟩]⟩

/-- Concrete fixture: a unit of document `D` whose only segment has the
invalid language code `X`. -/
def tuBad : TranslationUnit :=
  ⟨[⟨"Txt::Doc. No.", "D"⟩], [⟨"X", "bad"⟩]⟩

/-- Concrete fixture: a unit of document `D` whose only segment has an
empty language code, as the parser produces for a `tuv` without a `lang`
attribute. -/
def tuNoLang : TranslationUnit :=
  ⟨[⟨"Txt::Doc. No.", "D"⟩], [⟨"", "y"⟩]⟩

/-- Concrete fixture: a one-segment English unit of document `E`. -/
def tuDocE : TranslationUnit :=
  ⟨[⟨"Txt::Doc. No.", "E"⟩], [⟨"EN-GB", "z"⟩]⟩

/-- The writer state after a fresh unlimited handler processes `tuEN`
once: caches warmed, one pending row. -/
def s1warm : Handler :=
  { language_columns_in_db := ["en_gb"]
    docs_in_db := [("D", 1)]
    queries := [("INSERT INTO translation_units (en_gb,sequential_number,document_id) VALUES (?,?,?);",
      ["x", "0", "1"])]
    requested_langs := RequestedLangs.Unlimited
    valid_lang_codes := ["en_gb"]
    db_documents := [(1, "D")]
    db_translation_units := [] }

/-- A handler state whose caches already contain everything `tuEN` needs:
handling `tuEN` then mutates nothing but the pending batch. -/
def Warm (s : Handler) : Prop :=
  s.requested_langs = RequestedLangs.Unlimited ∧
  (∃ id, s.docsLookup "D" = some id) ∧
  s.language_columns_in_db.contains "en_gb" = true ∧
  s.valid_lang_codes.contains "en_gb" = true

section Lemmas

variable {s t : Handler}

theorem dbView_eq_iff : dbView t = dbView s ↔
    (t.queries = s.queries ∧ t.db_translation_units = s.db_translation_units ∧
      t.docs_in_db = s.docs_in_db ∧ t.db_documents = s.db_documents ∧
      t.requested_langs = s.requested_langs) := by
  simp [dbView, Prod.ext_iff]

theorem lctdc_dbView (s : Handler) (l : String) :
    dbView (s.lang_code_to_db_column l).1 = dbView s := by
  simp only [Handler.lang_code_to_db_column]
  split_ifs <;> simp [dbView]

theorem lctdc_columns (s : Handler) (l : String) :
    (s.lang_code_to_db_column l).1.language_columns_in_db = s.language_columns_in_db := by
  simp only [Handler.lang_code_to_db_column]
  split_ifs <;> simp

theorem lctdc_cacheOk (l : String) (h : cacheOk s) :
    cacheOk (s.lang_code_to_db_column l).1 := by
  simp only [Handler.lang_code_to_db_column]
  split_ifs with h1 h2
  · exact h
  · intro c hc
    simp only [List.mem_append, List.mem_singleton] at hc
    rcases hc with hc | hc
    · exact h c hc
    · rw [hc]; exact h2
  · exact h

theorem lctdc_ok_val {l c : String} {t : Handler}
    (h : s.lang_code_to_db_column l = (t, Except.ok c)) :
    c = normalize_lang_code l := by
  simp only [Handler.lang_code_to_db_column] at h
  split_ifs at h <;> simp_all

theorem lctdc_bad {l : String}
    (hbad : langCodeMatches (normalize_lang_code l) = false) (h : cacheOk s) :
    (s.lang_code_to_db_column l).2 =
      Except.error ("Error: invalid language code: " ++ normalize_lang_code l ++ ".") := by
  simp only [Handler.lang_code_to_db_column]
  split_ifs with h1 h2
  · refine absurd (h (normalize_lang_code l) ?_) (by simp [hbad])
    simpa using h1
  · exact absurd h2 (by simp [hbad])
  · rfl

theorem add_lang_column_dbView (s : Handler) (c : String) :
    dbView (s.add_lang_column c) = dbView s := by
  simp [dbView, Handler.add_lang_column]

theorem add_lang_column_valid (s : Handler) (c : String) :
    (s.add_lang_column c).valid_lang_codes = s.valid_lang_codes := by
  simp [Handler.add_lang_column]

theorem bimStep_dbView (s : Handler) (c : String) :
    dbView (s.bimStep c) = dbView s := by
  unfold Handler.bimStep
  split_ifs
  · exact add_lang_column_dbView s c
  · rfl

theorem bimStep_valid (s : Handler) (c : String) :
    (s.bimStep c).valid_lang_codes = s.valid_lang_codes := by
  unfold Handler.bimStep
  split_ifs
  · exact add_lang_column_valid s c
  · rfl

theorem bim_dbView (segs : List Tuv) : ∀ s : Handler,
    dbView (s.buildInsertMap segs).1 = dbView s := by
  induction segs with
  | nil => intro s; simp [Handler.buildInsertMap]
  | cons el rest ih =>
    intro s
    unfold Handler.buildInsertMap
    cases he : s.lang_is_eligible el.lang with
    | false => simpa [he] using ih s
    | true =>
      simp only [he, Bool.not_true, Bool.false_eq_true, if_false]
      rcases h1 : s.lang_code_to_db_column el.lang with ⟨s1, r1⟩
      have hv1 : dbView s1 = dbView s := by
        have := lctdc_dbView s el.lang; rwa [h1] at this
      rcases r1 with e | code
      · exact hv1
      · rcases h2 : (s1.bimStep code).buildInsertMap rest with ⟨s3, r3⟩
        have hv2 : dbView s3 = dbView s1 := by
          have h' := ih (s1.bimStep code)
          rw [h2] at h'
          simpa using h'.trans (bimStep_dbView s1 code)
        rcases r3 with e | tail <;> (dsimp only; rw [h2]; exact hv2.trans hv1)

theorem insert_document_fields (s : Handler) (tu : TranslationUnit) :
    (s.insert_document tu).queries = s.queries ∧
    (s.insert_document tu).db_translation_units = s.db_translation_units ∧
    (s.insert_document tu).valid_lang_codes = s.valid_lang_codes ∧
    (s.insert_document tu).language_columns_in_db = s.language_columns_in_db ∧
    (s.insert_document tu).requested_langs = s.requested_langs := by
  unfold Handler.insert_document
  split
  · split <;> simp
  · simp

theorem commit_pcRows (s : Handler) :
    pcRows s.commit_translation_units = pcRows s := by
  simp [pcRows, Handler.commit_translation_units]

theorem commit_fields (s : Handler) :
    s.commit_translation_units.queries = [] ∧
    s.commit_translation_units.docs_in_db = s.docs_in_db ∧
    s.commit_translation_units.db_documents = s.db_documents ∧
    s.commit_translation_units.requested_langs = s.requested_langs ∧
    s.commit_translation_units.valid_lang_codes = s.valid_lang_codes ∧
    s.commit_translation_units.language_columns_in_db = s.language_columns_in_db := by
  simp [Handler.commit_translation_units]

theorem create_dbView (s : Handler) (tu : TranslationUnit) (n : Nat) :
    dbView (s.create_translation_unit_insert_query tu n).1 = dbView s := by
  unfold Handler.create_translation_unit_insert_query
  split
  · rfl
  · rcases h : s.buildInsertMap tu.segments with ⟨s1, r1⟩
    have hv : dbView s1 = dbView s := by
      have h' := bim_dbView tu.segments s
      rwa [h] at h'
    rcases r1 with e | pairs <;> exact hv

theorem handle_cases (s : Handler) (tu : TranslationUnit) (n : Nat) :
    (∃ e s2, (s.insert_document tu).create_translation_unit_insert_query tu n = (s2, Except.error e) ∧
       s.handle_translation_unit tu n = (s2, Except.error e)) ∨
    (∃ q s2, (s.insert_document tu).create_translation_unit_insert_query tu n = (s2, Except.ok q) ∧
       s.handle_translation_unit tu n =
         if (s2.queries ++ [q]).length > TRANSACTION_SIZE then
           (Handler.commit_translation_units { s2 with queries := s2.queries ++ [q] },
             Except.ok ())
         else ({ s2 with queries := s2.queries ++ [q] }, Except.ok ())) := by
  unfold Handler.handle_translation_unit
  dsimp only
  rcases hc : (s.insert_document tu).create_translation_unit_insert_query tu n with ⟨s2, r2⟩
  rcases r2 with e | q
  · exact Or.inl ⟨e, s2, rfl, rfl⟩
  · exact Or.inr ⟨q, s2, rfl, rfl⟩

theorem handle_requested (s : Handler) (tu : TranslationUnit) (n : Nat) :
    (s.handle_translation_unit tu n).1.requested_langs = s.requested_langs := by
  have hins := (insert_document_fields s tu).2.2.2.2
  rcases handle_cases s tu n with ⟨e, s2, hc, hh⟩ | ⟨q, s2, hc, hh⟩ <;> rw [hh]
  · have h1 := create_dbView (s.insert_document tu) tu n
    rw [hc] at h1
    have := (dbView_eq_iff.mp h1).2.2.2.2
    simpa [hins] using this
  · have h1 := create_dbView (s.insert_document tu) tu n
    rw [hc] at h1
    have h2 := (dbView_eq_iff.mp h1).2.2.2.2
    dsimp only at h2
    split_ifs
    · simpa [(commit_fields _).2.2.2.1, hins] using h2
    · simpa [hins] using h2

theorem handle_docs (s : Handler) (tu : TranslationUnit) (n : Nat) :
    (s.handle_translation_unit tu n).1.docs_in_db = (s.insert_document tu).docs_in_db ∧
    (s.handle_translation_unit tu n).1.db_documents = (s.insert_document tu).db_documents := by
  rcases handle_cases s tu n with ⟨e, s2, hc, hh⟩ | ⟨q, s2, hc, hh⟩ <;> rw [hh] <;>
    have h1 := create_dbView (s.insert_document tu) tu n <;> rw [hc] at h1 <;>
    have h2 := dbView_eq_iff.mp h1
  · exact ⟨h2.2.2.1, h2.2.2.2.1⟩
  · dsimp only at h2
    split_ifs
    · exact ⟨((commit_fields _).2.1).trans h2.2.2.1,
        ((commit_fields _).2.2.1).trans h2.2.2.2.1⟩
    · exact ⟨h2.2.2.1, h2.2.2.2.1⟩

theorem handle_ok_pcRows {s : Handler} {tu : TranslationUnit} {n : Nat}
    (h : (s.handle_translation_unit tu n).2 = Except.ok ()) :
    pcRows (s.handle_translation_unit tu n).1 = pcRows s ++ [builtRow s tu n] := by
  rcases handle_cases s tu n with ⟨e, s2, hc, hh⟩ | ⟨q, s2, hc, hh⟩
  · rw [hh] at h; simp at h
  · have hq : builtRow s tu n = q := by unfold builtRow; rw [hc]
    have h1 := create_dbView (s.insert_document tu) tu n
    rw [hc] at h1
    have h2 := dbView_eq_iff.mp h1
    have hins := insert_document_fields s tu
    have hpc2 : pcRows s2 = pcRows s := by
      dsimp only at h2
      simp [pcRows, h2.1, h2.2.1, hins.1, hins.2.1]
    rw [hh, hq]
    split_ifs
    · rw [commit_pcRows]
      simp [pcRows, ← List.append_assoc]
      simp [pcRows] at hpc2
      simp [hpc2]
    · simp [pcRows, ← List.append_assoc]
      simp [pcRows] at hpc2
      simp [hpc2]

theorem handle_err_queries {s : Handler} {tu : TranslationUnit} {n : Nat} {e : String}
    (h : (s.handle_translation_unit tu n).2 = Except.error e) :
    (s.handle_translation_unit tu n).1.queries = s.queries := by
  rcases handle_cases s tu n with ⟨e', s2, hc, hh⟩ | ⟨q, s2, hc, hh⟩
  · have h1 := create_dbView (s.insert_document tu) tu n
    rw [hc] at h1
    have h2 := dbView_eq_iff.mp h1
    rw [hh]
    dsimp only at h2 ⊢
    rw [h2.1, (insert_document_fields s tu).1]
  · rw [hh] at h; split_ifs at h

theorem enumFrom_cons' {α : Type} (a : α) (l : List α) (i : Nat) :
    (a :: l).enumFrom i = (i, a) :: l.enumFrom (i + 1) := rfl

theorem create_ok_values {tu : TranslationUnit} {n : Nat} {s2 : Handler}
    {q : String × List String}
    (hc : s.create_translation_unit_insert_query tu n = (s2, Except.ok q)) :
    ∃ dn pairs, tu.doc_name = some dn ∧
      s.buildInsertMap tu.segments = (s2, Except.ok pairs) ∧
      q.2 = pairs.map Prod.snd ++ [toString n, toString ((s2.docsLookup dn).getD 0)] := by
  unfold Handler.create_translation_unit_insert_query at hc
  cases hd : tu.doc_name with
  | none => rw [hd] at hc; cases hc
  | some dn =>
    rw [hd] at hc
    rcases hb : s.buildInsertMap tu.segments with ⟨sb, rb⟩
    rw [hb] at hc
    rcases rb with e | pairs
    · cases hc
    · dsimp only at hc
      obtain ⟨hs, hq⟩ := Prod.mk.injEq .. |>.mp hc
      obtain hq := Except.ok.injEq .. |>.mp hq
      subst hs
      refine ⟨dn, pairs, rfl, rfl, ?_⟩
      rw [← hq]
      simp

theorem seqParam_of_shape {q : String × List String} {vals : List String} {a b : String}
    (h : q.2 = vals ++ [a, b]) : seqParam q = a ∧ docIdParam q = b := by
  unfold seqParam docIdParam
  rw [h]
  simp [List.reverse_append]

theorem handle_ok_row_params {tu : TranslationUnit} {n : Nat}
    (h : (s.handle_translation_unit tu n).2 = Except.ok ()) :
    seqParam (builtRow s tu n) = toString n ∧
    ∃ dn, tu.doc_name = some dn ∧
      docIdParam (builtRow s tu n) =
        toString ((((s.handle_translation_unit tu n).1).docsLookup dn).getD 0) := by
  rcases handle_cases s tu n with ⟨e, s2, hc, hh⟩ | ⟨q, s2, hc, hh⟩
  · rw [hh] at h; simp at h
  · have hq : builtRow s tu n = q := by unfold builtRow; rw [hc]
    obtain ⟨dn, pairs, hdn, hb, hvals⟩ := create_ok_values hc
    obtain ⟨hseq, hdoc⟩ := seqParam_of_shape hvals
    refine ⟨by rw [hq]; exact hseq, dn, hdn, ?_⟩
    rw [hq, hdoc]
    -- the final state's document cache is s2's: neither the batch push nor a
    -- commit touches `docs_in_db`
    have hdocs : (s.handle_translation_unit tu n).1.docs_in_db = s2.docs_in_db := by
      rw [hh]
      split_ifs
      · exact (commit_fields _).2.1
      · rfl
    unfold Handler.docsLookup
    rw [hdocs]

theorem runDocAux_cons (s : Handler) (tu : TranslationUnit)
    (rest : List TranslationUnit) (i : Nat) :
    runDocAux s (tu :: rest) i =
      if is_included tu s.requested_langs then
        match s.handle_translation_unit tu (i % 2 ^ 32) with
        | (s1, Except.ok _) => runDocAux s1 rest (i + 1)
        | (s1, Except.error e) => (s1, Except.error e)
      else runDocAux s rest (i + 1) := by
  conv_lhs => rw [runDocAux.eq_def]
  dsimp only
  cases hr : s.requested_langs with
  | Unlimited => simp [is_included]
  | Some l =>
    cases hc : tu.contains_any_lang (RequestedLangs.Some l) <;>
      simp [is_included, hr, hc]
  | Each l =>
    cases hc : tu.contains_each_lang (RequestedLangs.Each l) <;>
      simp [is_included, hr, hc]

theorem runDocAux_rows (tus : List TranslationUnit) : ∀ (s : Handler) (i : Nat),
    (runDocAux s tus i).2 = Except.ok () →
    (runDocAux s tus i).1.requested_langs = s.requested_langs ∧
    (pcRows (runDocAux s tus i).1).map seqParam =
      (pcRows s).map seqParam ++
        ((tus.enumFrom i).filter (fun p => is_included p.2 s.requested_langs)).map
          (fun p => toString (p.1 % 2 ^ 32)) := by
  induction tus with
  | nil => intro s i _; simp [runDocAux]
  | cons tu rest ih =>
    intro s i h
    rw [runDocAux_cons] at h ⊢
    rw [enumFrom_cons']
    by_cases hinc : is_included tu s.requested_langs
    · rw [if_pos hinc] at h ⊢
      revert h
      rcases hh : s.handle_translation_unit tu (i % 2 ^ 32) with ⟨s1, r1⟩
      rcases r1 with e | u
      · intro h; simp at h
      · intro h
        dsimp only at h ⊢
        have hok : (s.handle_translation_unit tu (i % 2 ^ 32)).2 = Except.ok () := by
          rw [hh]
        have hs1 : (s.handle_translation_unit tu (i % 2 ^ 32)).1 = s1 := by rw [hh]
        have hreq1 : s1.requested_langs = s.requested_langs := by
          rw [← hs1]; exact handle_requested s tu (i % 2 ^ 32)
        have hpc1 : pcRows s1 = pcRows s ++ [builtRow s tu (i % 2 ^ 32)] := by
          rw [← hs1]; exact handle_ok_pcRows hok
        obtain ⟨hseq, _⟩ := handle_ok_row_params hok
        obtain ⟨hreq, hrows⟩ := ih s1 (i + 1) h
        refine ⟨hreq.trans hreq1, ?_⟩
        have hfilter : List.filter (fun p => is_included p.2 s.requested_langs)
            ((i, tu) :: List.enumFrom (i + 1) rest) =
            (i, tu) :: List.filter (fun p => is_included p.2 s.requested_langs)
              (List.enumFrom (i + 1) rest) :=
          List.filter_cons_of_pos hinc
        rw [hrows, hpc1, hreq1, hfilter, List.map_append, List.map_cons, List.map_cons,
          List.map_nil, hseq, List.append_assoc, List.singleton_append]
    · rw [if_neg hinc] at h ⊢
      obtain ⟨hreq, hrows⟩ := ih s (i + 1) h
      refine ⟨hreq, ?_⟩
      rw [hrows]
      simp [hinc]

theorem length_filter_enumFrom (r : RequestedLangs) (tus : List TranslationUnit) :
    ∀ i, ((tus.enumFrom i).filter (fun p => is_included p.2 r)).length =
      (tus.filter (fun tu => is_included tu r)).length := by
  induction tus with
  | nil => intro i; rfl
  | cons tu rest ih =>
    intro i
    rw [enumFrom_cons']
    by_cases h : is_included tu r <;> simp [List.filter_cons, h, ih]

theorem runDocAux_ok_len {tus : List TranslationUnit} {i : Nat}
    (h : (runDocAux s tus i).2 = Except.ok ()) :
    (pcRows (runDocAux s tus i).1).length = (pcRows s).length +
      (tus.filter (fun tu => is_included tu s.requested_langs)).length := by
  have hrows := (runDocAux_rows tus s i h).2
  have hlen := congrArg List.length hrows
  rw [List.length_map, List.length_append, List.length_map, List.length_map,
    length_filter_enumFrom] at hlen
  exact hlen

theorem runCorpus_cons (s : Handler) (d : List TranslationUnit)
    (rest : List (List TranslationUnit)) :
    runCorpus s (d :: rest) =
      match runDocument s d with
      | (s1, Except.ok _) => runCorpus s1 rest
      | (s1, Except.error e) => (s1, Except.error e) := rfl

theorem runCorpus_ok_len (docs : List (List TranslationUnit)) : ∀ s : Handler,
    (runCorpus s docs).2 = Except.ok () →
    (runCorpus s docs).1.requested_langs = s.requested_langs ∧
    (pcRows (runCorpus s docs).1).length = (pcRows s).length +
      (docs.map (fun d =>
        (d.filter (fun tu => is_included tu s.requested_langs)).length)).sum := by
  induction docs with
  | nil => intro s _; simp [runCorpus]
  | cons d rest ih =>
    intro s h
    rw [runCorpus_cons] at h ⊢
    revert h
    rcases hd : runDocument s d with ⟨s1, r1⟩
    rcases r1 with e | u
    · intro h; simp at h
    · intro h
      dsimp only at h ⊢
      have hdoc : (runDocument s d).2 = Except.ok () := by rw [hd]
      have hs1 : (runDocument s d).1 = s1 := by rw [hd]
      have hreq1 : s1.requested_langs = s.requested_langs := by
        rw [← hs1]; exact (runDocAux_rows d s 0 hdoc).1
      have hlen1 : (pcRows s1).length = (pcRows s).length +
          (d.filter (fun tu => is_included tu s.requested_langs)).length := by
        rw [← hs1]; exact runDocAux_ok_len hdoc
      obtain ⟨hreq, hlen⟩ := ih s1 h
      refine ⟨hreq.trans hreq1, ?_⟩
      rw [hlen, hlen1, hreq1]
      simp [Nat.add_assoc]

theorem docsLookup_isSome_iff (h : docsInv s) (n : String) :
    (s.docsLookup n).isSome ↔ n ∈ s.db_documents.map Prod.snd := by
  unfold Handler.docsLookup
  rw [h.1, Option.isSome_map', List.find?_isSome]
  constructor
  · rintro ⟨x, hx, hpx⟩
    obtain ⟨r, hr, hrx⟩ := List.mem_map.mp hx
    have : x.1 = n := by simpa using hpx
    rw [← hrx] at this
    exact List.mem_map.mpr ⟨r, hr, this⟩
  · intro hn
    obtain ⟨r, hr, hrn⟩ := List.mem_map.mp hn
    exact ⟨(r.2, r.1), List.mem_map.mpr ⟨r, hr, rfl⟩, by simpa using hrn⟩

theorem docsLookup_stable {n : String} {id : Nat}
    (hs : s.docsLookup n = some id) (tu : TranslationUnit) :
    (s.insert_document tu).docsLookup n = some id := by
  unfold Handler.insert_document
  split
  · split
    · exact hs
    · unfold Handler.docsLookup at hs ⊢
      rcases hf : s.docs_in_db.find? (fun p => p.1 == n) with _ | p
      · rw [hf] at hs; cases hs
      · rw [hf] at hs
        dsimp only
        rw [List.find?_append, hf]
        simpa using hs
  · exact hs

theorem docsLookup_insert_self {dn : String} (tu : TranslationUnit)
    (h : tu.doc_name = some dn) :
    ∃ id, (s.insert_document tu).docsLookup dn = some id := by
  unfold Handler.insert_document
  rw [h]
  dsimp only
  rcases hl : s.docsLookup dn with _ | id
  · refine ⟨s.db_documents.length + 1, ?_⟩
    dsimp only
    unfold Handler.docsLookup at hl ⊢
    dsimp only
    rw [List.find?_append]
    have hf : s.docs_in_db.find? (fun p => p.1 == dn) = none := by
      rcases ho : s.docs_in_db.find? (fun p => p.1 == dn) with _ | p
      · exact ho
      · rw [ho] at hl; simp at hl
    rw [hf, List.find?_singleton]
    simp
  · exact ⟨id, hl⟩

theorem insert_document_docsInv (h : docsInv s) (tu : TranslationUnit) :
    docsInv (s.insert_document tu) := by
  unfold Handler.insert_document
  split
  · rename_i dn hdn
    rcases hl : s.docsLookup dn with _ | id
    · constructor
      · dsimp only
        rw [h.1]
        simp
      · dsimp only
        rw [List.map_append]
        rw [List.nodup_append]
        refine ⟨h.2, by simp, ?_⟩
        intro x hx hx'
        simp at hx'
        subst hx'
        have : (s.docsLookup x).isSome := (docsLookup_isSome_iff h x).mpr hx
        rw [hl] at this
        cases this
    · exact h
  · exact h

theorem insert_document_names (s : Handler) (tu : TranslationUnit) :
    (s.insert_document tu).db_documents.map Prod.snd =
      s.db_documents.map Prod.snd ++
        (match tu.doc_name with
         | none => []
         | some dn =>
           match s.docsLookup dn with
           | some _ => []
           | none => [dn]) := by
  cases hdn : tu.doc_name with
  | none => unfold Handler.insert_document; rw [hdn]; simp
  | some dn =>
    unfold Handler.insert_document
    rw [hdn]
    dsimp only
    rcases hl : s.docsLookup dn with _ | id <;> simp

theorem docsLookup_congr {t u : Handler} (h1 : t.docs_in_db = u.docs_in_db)
    (n : String) : t.docsLookup n = u.docsLookup n := by
  unfold Handler.docsLookup; rw [h1]

theorem docsInv_congr {t u : Handler} (h1 : t.docs_in_db = u.docs_in_db)
    (h2 : t.db_documents = u.db_documents) (h : docsInv u) : docsInv t := by
  unfold docsInv at *
  rw [h1, h2]
  exact h

theorem handle_lookup_stable {n : String} {id : Nat}
    (hs : s.docsLookup n = some id) (tu : TranslationUnit) (m : Nat) :
    (s.handle_translation_unit tu m).1.docsLookup n = some id := by
  rw [docsLookup_congr (handle_docs s tu m).1 n]
  exact docsLookup_stable hs tu

theorem runDocAux_lookup_stable (tus : List TranslationUnit) :
    ∀ (s : Handler) (i : Nat) (n : String) (id : Nat), s.docsLookup n = some id →
    (runDocAux s tus i).1.docsLookup n = some id := by
  induction tus with
  | nil => intro s i n id hs; simpa [runDocAux] using hs
  | cons tu rest ih =>
    intro s i n id hs
    rw [runDocAux_cons]
    by_cases hinc : is_included tu s.requested_langs
    · rw [if_pos hinc]
      rcases hh : s.handle_translation_unit tu (i % 2 ^ 32) with ⟨s1, r1⟩
      have hs1 : s1.docsLookup n = some id := by
        have h' := handle_lookup_stable hs tu (i % 2 ^ 32)
        rwa [hh] at h'
      rcases r1 with e | u
      · exact hs1
      · exact ih s1 (i + 1) n id hs1
    · rw [if_neg hinc]
      exact ih s (i + 1) n id hs

theorem mem_dedupFirstAux (l : List String) :
    ∀ (seen : List String) (x : String),
      x ∈ dedupFirstAux seen l ↔ x ∈ l ∧ x ∉ seen := by
  induction l with
  | nil => intro seen x; simp [dedupFirstAux]
  | cons n rest ih =>
    intro seen x
    unfold dedupFirstAux
    by_cases hn : seen.contains n = true
    · rw [if_pos hn]
      rw [ih seen x]
      have hnseen : n ∈ seen := by simpa using hn
      constructor
      · rintro ⟨hx, hxs⟩
        exact ⟨List.mem_cons_of_mem _ hx, hxs⟩
      · rintro ⟨hx, hxs⟩
        rcases List.mem_cons.mp hx with rfl | hx
        · exact absurd hnseen hxs
        · exact ⟨hx, hxs⟩
    · rw [if_neg hn]
      have hnseen : n ∉ seen := by
        intro hmem
        exact hn (by simpa using hmem)
      constructor
      · intro hx
        rcases List.mem_cons.mp hx with rfl | hx
        · exact ⟨List.mem_cons_self _ _, hnseen⟩
        · obtain ⟨h1, h2⟩ := (ih (seen ++ [n]) x).mp hx
          refine ⟨List.mem_cons_of_mem _ h1, fun hc => h2 ?_⟩
          simp [hc]
      · rintro ⟨hx, hxs⟩
        rcases List.mem_cons.mp hx with rfl | hx
        · exact List.mem_cons_self _ _
        · by_cases hxn : x = n
          · subst hxn; exact List.mem_cons_self _ _
          · refine List.mem_cons_of_mem _ ((ih (seen ++ [n]) x).mpr ⟨hx, ?_⟩)
            simp [hxs, hxn]

theorem nodup_dedupFirstAux (l : List String) :
    ∀ seen : List String, (dedupFirstAux seen l).Nodup := by
  induction l with
  | nil => intro seen; simp [dedupFirstAux]
  | cons n rest ih =>
    intro seen
    unfold dedupFirstAux
    by_cases hn : seen.contains n = true
    · rw [if_pos hn]; exact ih seen
    · rw [if_neg hn]
      rw [List.nodup_cons]
      refine ⟨fun hc => ?_, ih (seen ++ [n])⟩
      obtain ⟨_, h2⟩ := (mem_dedupFirstAux rest (seen ++ [n]) n).mp hc
      exact h2 (by simp)

theorem length_dedupFirst (l : List String) :
    (dedupFirst l).length = l.dedup.length := by
  have hnd : (dedupFirst l).Nodup := nodup_dedupFirstAux l []
  have hfin : (dedupFirst l).toFinset = l.toFinset := by
    ext x
    simp [List.mem_toFinset, dedupFirst, mem_dedupFirstAux]
  calc (dedupFirst l).length
      = (dedupFirst l).toFinset.card := (List.toFinset_card_of_nodup hnd).symm
    _ = l.toFinset.card := by rw [hfin]
    _ = l.dedup.length := List.card_toFinset l

theorem docsInv_functional (h : docsInv s) :
    ∀ (n : String) (i j : Nat),
      (n, i) ∈ s.docs_in_db → (n, j) ∈ s.docs_in_db → i = j := by
  intro n i j hi hj
  rw [h.1] at hi hj
  obtain ⟨r, hr, hre⟩ := List.mem_map.mp hi
  obtain ⟨r', hr', hre'⟩ := List.mem_map.mp hj
  have hsnd : r.2 = r'.2 := by
    have h1 : r.2 = n := congrArg Prod.fst hre
    have h2 : r'.2 = n := congrArg Prod.fst hre'
    rw [h1, h2]
  have hrr : r = r' := List.inj_on_of_nodup_map h.2 hr hr' hsnd
  have h1 : r.1 = i := congrArg Prod.snd hre
  have h2 : r'.1 = j := congrArg Prod.snd hre'
  rw [← h1, ← h2, hrr]

theorem runDocAux_names (tus : List TranslationUnit) : ∀ (s : Handler) (i : Nat),
    (runDocAux s tus i).2 = Except.ok () → docsInv s →
    docsInv (runDocAux s tus i).1 ∧
    (runDocAux s tus i).1.db_documents.map Prod.snd =
      s.db_documents.map Prod.snd ++
        dedupFirstAux (s.db_documents.map Prod.snd)
          ((tus.filter (fun tu => is_included tu s.requested_langs)).filterMap
            TranslationUnit.doc_name) := by
  induction tus with
  | nil => intro s i _ hinv; simpa [runDocAux, dedupFirstAux] using hinv
  | cons tu rest ih =>
    intro s i h hinv
    rw [runDocAux_cons] at h ⊢
    by_cases hinc : is_included tu s.requested_langs
    · rw [if_pos hinc] at h ⊢
      revert h
      rcases hh : s.handle_translation_unit tu (i % 2 ^ 32) with ⟨s1, r1⟩
      rcases r1 with e | u
      · intro h; simp at h
      · intro h
        dsimp only at h ⊢
        have hok : (s.handle_translation_unit tu (i % 2 ^ 32)).2 = Except.ok () := by
          rw [hh]
        have hs1 : (s.handle_translation_unit tu (i % 2 ^ 32)).1 = s1 := by rw [hh]
        have hreq1 : s1.requested_langs = s.requested_langs := by
          rw [← hs1]; exact handle_requested s tu (i % 2 ^ 32)
        obtain ⟨hdocs1, hdb1⟩ := handle_docs s tu (i % 2 ^ 32)
        rw [hs1] at hdocs1 hdb1
        obtain ⟨_, dn, hdn, _⟩ := handle_ok_row_params hok
        have hinv1 : docsInv s1 :=
          docsInv_congr hdocs1 hdb1 (insert_document_docsInv hinv tu)
        have hnames1 : s1.db_documents.map Prod.snd =
            s.db_documents.map Prod.snd ++
              (match s.docsLookup dn with
               | some _ => []
               | none => [dn]) := by
          rw [hdb1, insert_document_names, hdn]
        obtain ⟨hinvf, hnamesf⟩ := ih s1 (i + 1) h hinv1
        refine ⟨hinvf, ?_⟩
        rw [hnamesf, hreq1]
        have hfilter : List.filter (fun x => is_included x s.requested_langs) (tu :: rest) =
            tu :: List.filter (fun x => is_included x s.requested_langs) rest :=
          List.filter_cons_of_pos hinc
        rw [hfilter, List.filterMap_cons, hdn]
        dsimp only
        rcases hl : s.docsLookup dn with _ | id
        · -- new document: a row and a cache entry were created
          have hcontains : (s.db_documents.map Prod.snd).contains dn = false := by
            have hnm : dn ∉ s.db_documents.map Prod.snd := by
              intro hmem
              have := (docsLookup_isSome_iff hinv dn).mpr hmem
              rw [hl] at this
              cases this
            simpa using hnm
          rw [hnames1, hl]
          conv_rhs => rw [dedupFirstAux]
          rw [if_neg (by rw [hcontains]; simp)]
          simp
        · -- already-seen document: nothing inserted
          have hcontains : (s.db_documents.map Prod.snd).contains dn = true := by
            have hnm : dn ∈ s.db_documents.map Prod.snd := by
              apply (docsLookup_isSome_iff hinv dn).mp
              rw [hl]
              rfl
            simpa using hnm
          rw [hnames1, hl]
          conv_rhs => rw [dedupFirstAux]
          rw [if_pos (by rw [hcontains])]
          simp
    · rw [if_neg hinc] at h ⊢
      have hfilter : List.filter (fun x => is_included x s.requested_langs) (tu :: rest) =
          List.filter (fun x => is_included x s.requested_langs) rest :=
        List.filter_cons_of_neg (by simpa using hinc)
      rw [hfilter]
      exact ih s (i + 1) h hinv

theorem runDocAux_docids (tus : List TranslationUnit) : ∀ (s : Handler) (i : Nat),
    (runDocAux s tus i).2 = Except.ok () → docsInv s →
    (pcRows (runDocAux s tus i).1).map docIdParam =
      (pcRows s).map docIdParam ++
        (tus.filter (fun tu => is_included tu s.requested_langs)).map
          (fun tu =>
            toString ((((runDocAux s tus i).1).docsLookup (tu.doc_name.getD "")).getD 0)) := by
  induction tus with
  | nil => intro s i _ _; simp [runDocAux]
  | cons tu rest ih =>
    intro s i h hinv
    rw [runDocAux_cons] at h ⊢
    by_cases hinc : is_included tu s.requested_langs
    · rw [if_pos hinc] at h ⊢
      revert h
      rcases hh : s.handle_translation_unit tu (i % 2 ^ 32) with ⟨s1, r1⟩
      rcases r1 with e | u
      · intro h; simp at h
      · intro h
        dsimp only at h ⊢
        have hok : (s.handle_translation_unit tu (i % 2 ^ 32)).2 = Except.ok () := by
          rw [hh]
        have hs1 : (s.handle_translation_unit tu (i % 2 ^ 32)).1 = s1 := by rw [hh]
        have hreq1 : s1.requested_langs = s.requested_langs := by
          rw [← hs1]; exact handle_requested s tu (i % 2 ^ 32)
        obtain ⟨hdocs1, _⟩ := handle_docs s tu (i % 2 ^ 32)
        rw [hs1] at hdocs1
        obtain ⟨_, dn, hdn, hdid⟩ := handle_ok_row_params hok
        rw [hs1] at hdid
        obtain ⟨id, hid⟩ : ∃ id, s1.docsLookup dn = some id := by
          rw [docsLookup_congr hdocs1 dn]
          exact docsLookup_insert_self tu hdn
        have hfin : (runDocAux s1 rest (i + 1)).1.docsLookup dn = some id :=
          runDocAux_lookup_stable rest s1 (i + 1) dn id hid
        have hinv1 : docsInv s1 :=
          docsInv_congr hdocs1 ((handle_docs s tu (i % 2 ^ 32)).2.symm.trans
            (congrArg Handler.db_documents hs1)).symm (insert_document_docsInv hinv tu)
        have hpc1 : pcRows s1 = pcRows s ++ [builtRow s tu (i % 2 ^ 32)] := by
          rw [← hs1]; exact handle_ok_pcRows hok
        have hfilter : List.filter (fun x => is_included x s.requested_langs) (tu :: rest) =
            tu :: List.filter (fun x => is_included x s.requested_langs) rest :=
          List.filter_cons_of_pos hinc
        rw [hfilter, List.map_cons]
        have hhead : toString
            ((((runDocAux s1 rest (i + 1)).1).docsLookup (tu.doc_name.getD "")).getD 0) =
            docIdParam (builtRow s tu (i % 2 ^ 32)) := by
          have e1 : tu.doc_name.getD "" = dn := by rw [hdn]; rfl
          rw [e1, hfin, hdid, hid]
        rw [hhead]
        have hrest := ih s1 (i + 1) h hinv1
        rw [hrest, hpc1, hreq1, List.map_append]
        rw [List.map_cons, List.map_nil, List.append_assoc, List.singleton_append]
    · rw [if_neg hinc] at h ⊢
      have hfilter : List.filter (fun x => is_included x s.requested_langs) (tu :: rest) =
          List.filter (fun x => is_included x s.requested_langs) rest :=
        List.filter_cons_of_neg (by simpa using hinc)
      rw [hfilter]
      exact ih s (i + 1) h hinv

theorem lang_is_eligible_congr {t u : Handler} (h : t.requested_langs = u.requested_langs)
    (l : String) : t.lang_is_eligible l = u.lang_is_eligible l := by
  unfold Handler.lang_is_eligible
  rw [h]

theorem bim_ok_pairs (segs : List Tuv) :
    ∀ (s s' : Handler) (pairs : List (String × String)),
      s.buildInsertMap segs = (s', Except.ok pairs) →
      pairs = (segs.filter (fun seg => s.lang_is_eligible seg.lang)).map
        (fun seg => (normalize_lang_code seg.lang, seg.content)) := by
  induction segs with
  | nil =>
    intro s s' pairs h
    unfold Handler.buildInsertMap at h
    simp only [Prod.mk.injEq, Except.ok.injEq] at h
    rw [← h.2]
    rfl
  | cons el rest ih =>
    intro s s' pairs h
    unfold Handler.buildInsertMap at h
    cases he : s.lang_is_eligible el.lang
    · rw [he] at h
      simp only [Bool.not_false, if_true] at h
      have hfilter : (el :: rest).filter (fun seg => s.lang_is_eligible seg.lang) =
          rest.filter (fun seg => s.lang_is_eligible seg.lang) :=
        List.filter_cons_of_neg (by simp [he])
      rw [hfilter]
      exact ih s s' pairs h
    · rw [he] at h
      simp only [Bool.not_true, Bool.false_eq_true, if_false] at h
      rcases hc : s.lang_code_to_db_column el.lang with ⟨s1, r1⟩
      rw [hc] at h
      rcases r1 with e | code
      · simp at h
      · dsimp only at h
        rcases hb : (s1.bimStep code).buildInsertMap rest with ⟨s3, r3⟩
        rw [hb] at h
        rcases r3 with e | tail
        · simp at h
        · dsimp only at h
          simp only [Prod.mk.injEq, Except.ok.injEq] at h
          have hcode : code = normalize_lang_code el.lang := lctdc_ok_val hc
          have hreq : (s1.bimStep code).requested_langs = s.requested_langs := by
            have h1 := (dbView_eq_iff.mp (bimStep_dbView s1 code)).2.2.2.2
            have h2 := (dbView_eq_iff.mp (lctdc_dbView s el.lang)).2.2.2.2
            rw [hc] at h2
            exact h1.trans h2
          have htail := ih (s1.bimStep code) s3 tail hb
          have hfilter : (el :: rest).filter (fun seg => s.lang_is_eligible seg.lang) =
              el :: rest.filter (fun seg => s.lang_is_eligible seg.lang) :=
            List.filter_cons_of_pos he
          have hfc : List.filter (fun seg : Tuv => (s1.bimStep code).lang_is_eligible seg.lang)
              rest = List.filter (fun seg : Tuv => s.lang_is_eligible seg.lang) rest :=
            List.filter_congr fun (x : Tuv) _ => lang_is_eligible_congr hreq x.lang
          rw [hfilter, List.map_cons, ← h.2, htail, ← hcode, hfc]

theorem bim_filter (segs : List Tuv) : ∀ (s : Handler) (L : List String),
    (s.requested_langs = RequestedLangs.Some L ∨
      s.requested_langs = RequestedLangs.Each L) →
    s.buildInsertMap (segs.filter (fun seg => L.contains seg.lang)) =
      s.buildInsertMap segs := by
  induction segs with
  | nil => intro s L _; rfl
  | cons el rest ih =>
    intro s L hL
    have helig : s.lang_is_eligible el.lang = L.contains el.lang := by
      rcases hL with h | h <;> (unfold Handler.lang_is_eligible; rw [h])
    cases hc : L.contains el.lang
    · have hfilter : (el :: rest).filter (fun seg => L.contains seg.lang) =
          rest.filter (fun seg => L.contains seg.lang) :=
        List.filter_cons_of_neg (by simpa using hc)
      rw [hfilter, ih s L hL]
      conv_rhs => rw [Handler.buildInsertMap.eq_def]
      dsimp only
      rw [helig, hc]
      simp
    · have hfilter : (el :: rest).filter (fun seg => L.contains seg.lang) =
          el :: rest.filter (fun seg => L.contains seg.lang) :=
        List.filter_cons_of_pos hc
      rw [hfilter]
      conv_lhs => rw [Handler.buildInsertMap.eq_def]
      conv_rhs => rw [Handler.buildInsertMap.eq_def]
      dsimp only
      rw [helig, hc]
      simp only [Bool.not_true, Bool.false_eq_true, if_false]
      rcases hcc : s.lang_code_to_db_column el.lang with ⟨s1, r1⟩
      rcases r1 with e | code
      · rfl
      · dsimp only
        have hreq : (s1.bimStep code).requested_langs = s.requested_langs := by
          have h1 := (dbView_eq_iff.mp (bimStep_dbView s1 code)).2.2.2.2
          have h2 := (dbView_eq_iff.mp (lctdc_dbView s el.lang)).2.2.2.2
          rw [hcc] at h2
          exact h1.trans h2
        have hL' : (s1.bimStep code).requested_langs = RequestedLangs.Some L ∨
            (s1.bimStep code).requested_langs = RequestedLangs.Each L := by
          rcases hL with h | h
          · exact Or.inl (hreq.trans h)
          · exact Or.inr (hreq.trans h)
        rw [ih (s1.bimStep code) L hL']

theorem lctdc_ok_matches {l code : String} {s1 : Handler} (hcache : cacheOk s)
    (hc : s.lang_code_to_db_column l = (s1, Except.ok code)) :
    langCodeMatches (normalize_lang_code l) = true := by
  simp only [Handler.lang_code_to_db_column] at hc
  split_ifs at hc with h1 h2
  · exact hcache _ (by simpa using h1)
  · exact h2
  · simp at hc

theorem bim_error_of_bad (segs : List Tuv) : ∀ s : Handler, cacheOk s →
    (∃ seg ∈ segs, s.lang_is_eligible seg.lang = true ∧
      langCodeMatches (normalize_lang_code seg.lang) = false) →
    ∃ e, (s.buildInsertMap segs).2 = Except.error e := by
  induction segs with
  | nil =>
    rintro s _ ⟨seg, hmem, _⟩
    simp at hmem
  | cons el rest ih =>
    rintro s hcache ⟨seg, hmem, helig, hbad⟩
    unfold Handler.buildInsertMap
    cases he : s.lang_is_eligible el.lang
    · simp only [he, Bool.not_false, if_true]
      have hsegr : seg ∈ rest := by
        rcases List.mem_cons.mp hmem with rfl | hr
        · rw [helig] at he; cases he
        · exact hr
      exact ih s hcache ⟨seg, hsegr, helig, hbad⟩
    · simp only [he, Bool.not_true, Bool.false_eq_true, if_false]
      rcases hc : s.lang_code_to_db_column el.lang with ⟨s1, r1⟩
      rcases r1 with e | code
      · exact ⟨e, rfl⟩
      · dsimp only
        have hel_ok : langCodeMatches (normalize_lang_code el.lang) = true :=
          lctdc_ok_matches hcache hc
        have hsegr : seg ∈ rest := by
          rcases List.mem_cons.mp hmem with rfl | hr
          · rw [hel_ok] at hbad; cases hbad
          · exact hr
        have hcache1 : cacheOk (s1.bimStep code) := by
          unfold cacheOk
          rw [bimStep_valid]
          have := lctdc_cacheOk el.lang hcache
          rwa [hc] at this
        have hreq : (s1.bimStep code).requested_langs = s.requested_langs := by
          have h1 := (dbView_eq_iff.mp (bimStep_dbView s1 code)).2.2.2.2
          have h2 := (dbView_eq_iff.mp (lctdc_dbView s el.lang)).2.2.2.2
          rw [hc] at h2
          exact h1.trans h2
        have helig1 : (s1.bimStep code).lang_is_eligible seg.lang = true := by
          rw [lang_is_eligible_congr hreq]
          exact helig
        obtain ⟨e, htail⟩ := ih (s1.bimStep code) hcache1 ⟨seg, hsegr, helig1, hbad⟩
        rcases hb : (s1.bimStep code).buildInsertMap rest with ⟨s3, r3⟩
        rw [hb] at htail
        rcases r3 with e' | tail
        · exact ⟨e', rfl⟩
        · simp at htail

theorem warm_handle {s : Handler} (h : Warm s) (n : Nat)
    (hlen : s.queries.length + 1 ≤ TRANSACTION_SIZE) :
    ∃ q, s.handle_translation_unit tuEN n =
      ({ s with queries := s.queries ++ [q] }, Except.ok ()) := by
  obtain ⟨hreq, ⟨id, hid⟩, hcol, hvalid⟩ := h
  have hins : s.insert_document tuEN = s := by
    unfold Handler.insert_document
    rw [show tuEN.doc_name = some "D" from rfl]
    dsimp only
    rw [hid]
  have hlc : s.lang_code_to_db_column "EN-GB" = (s, Except.ok "en_gb") := by
    simp only [Handler.lang_code_to_db_column]
    rw [show normalize_lang_code "EN-GB" = "en_gb" from rfl, if_pos hvalid]
  have hbim : s.buildInsertMap tuEN.segments = (s, Except.ok [("en_gb", "x")]) := by
    rw [show tuEN.segments = [⟨"EN-GB", "x"⟩] from rfl]
    unfold Handler.buildInsertMap
    rw [show s.lang_is_eligible "EN-GB" = true from by
      unfold Handler.lang_is_eligible; rw [hreq]]
    dsimp only [Bool.not_true]
    rw [if_neg (by simp), hlc]
    dsimp only
    unfold Handler.bimStep
    rw [if_neg (by rw [hcol]; simp)]
    rfl
  have hq : s.create_translation_unit_insert_query tuEN n =
      (s, Except.ok
        ("INSERT INTO translation_units (en_gb,sequential_number,document_id) VALUES (?,?,?);",
          ["x", toString n, toString id])) := by
    unfold Handler.create_translation_unit_insert_query
    rw [show tuEN.doc_name = some "D" from rfl]
    dsimp only
    rw [hbim]
    dsimp only
    rw [hid]
    rfl
  refine ⟨("INSERT INTO translation_units (en_gb,sequential_number,document_id) VALUES (?,?,?);",
    ["x", toString n, toString id]), ?_⟩
  unfold Handler.handle_translation_unit
  dsimp only
  rw [hins, hq]
  dsimp only
  rw [if_neg (by simp only [List.length_append, List.length_singleton]; omega)]

theorem warm_run (n : Nat) : ∀ (s : Handler) (i : Nat), Warm s →
    s.queries.length + n ≤ TRANSACTION_SIZE →
    (runDocAux s (List.replicate n tuEN) i).2 = Except.ok () ∧
    (runDocAux s (List.replicate n tuEN) i).1.queries.length = s.queries.length + n := by
  induction n with
  | zero => intro s i _ _; simp [runDocAux]
  | succ m ih =>
    intro s i hw hlen
    rw [List.replicate_succ, runDocAux_cons]
    have hinc : is_included tuEN s.requested_langs = true := by rw [hw.1]; rfl
    rw [if_pos hinc]
    obtain ⟨q, hh⟩ := warm_handle hw (i % 2 ^ 32) (by omega)
    rw [hh]
    dsimp only
    have hw' : Warm { s with queries := s.queries ++ [q] } :=
      ⟨hw.1, hw.2.1, hw.2.2.1, hw.2.2.2⟩
    obtain ⟨hok, hl⟩ := ih { s with queries := s.queries ++ [q] } (i + 1) hw'
      (by simp only [List.length_append, List.length_singleton]; omega)
    refine ⟨hok, ?_⟩
    rw [hl]
    simp only [List.length_append, List.length_singleton]
    omega

theorem drop_db (s : Handler) :
    (s.drop).db_translation_units = pcRows s := rfl

theorem handle_error_of_bad {tu : TranslationUnit} (hcache : cacheOk s)
    (hbad : ∃ seg ∈ tu.segments, s.lang_is_eligible seg.lang = true ∧
      langCodeMatches (normalize_lang_code seg.lang) = false) (n : Nat) :
    (∃ e, (s.handle_translation_unit tu n).2 = Except.error e) ∧
    (s.handle_translation_unit tu n).1.queries = s.queries := by
  have hcache' : cacheOk (s.insert_document tu) := by
    unfold cacheOk
    rw [(insert_document_fields s tu).2.2.1]
    exact hcache
  have hbad' : ∃ seg ∈ tu.segments, (s.insert_document tu).lang_is_eligible seg.lang = true ∧
      langCodeMatches (normalize_lang_code seg.lang) = false := by
    obtain ⟨seg, hm, he, hb⟩ := hbad
    refine ⟨seg, hm, ?_, hb⟩
    rw [lang_is_eligible_congr (insert_document_fields s tu).2.2.2.2]
    exact he
  obtain ⟨e0, herr⟩ := bim_error_of_bad tu.segments (s.insert_document tu) hcache' hbad'
  rcases handle_cases s tu n with ⟨e, s2, hc, hh⟩ | ⟨q, s2, hc, hh⟩
  · exact ⟨⟨e, by rw [hh]⟩, handle_err_queries (by rw [hh])⟩
  · obtain ⟨dn, pairs, hdn, hbok, _⟩ := create_ok_values hc
    rw [hbok] at herr
    simp at herr

theorem handle_error_run {tu : TranslationUnit} {rest : List TranslationUnit} {i : Nat}
    (s : Handler) (hU : s.requested_langs = RequestedLangs.Unlimited)
    (herr : ∃ e, (s.handle_translation_unit tu (i % 2 ^ 32)).2 = Except.error e) :
    ∃ e, (runDocAux s (tu :: rest) i).2 = Except.error e := by
  rw [runDocAux_cons, if_pos (by rw [hU]; rfl)]
  obtain ⟨e, he⟩ := herr
  rcases hh : s.handle_translation_unit tu (i % 2 ^ 32) with ⟨s1, r1⟩
  rw [hh] at he
  rcases r1 with e' | u
  · exact ⟨e', rfl⟩
  · simp at he

theorem runDocument_eq (s : Handler) (tus : List TranslationUnit) :
    runDocument s tus = runDocAux s tus 0 := rfl

theorem sql_commit_batch_state (s : SqlHandler) :
    (s.commit_batch).1.incoming_batch = [] ∧ (s.commit_batch).1.langs_in_batch = [] := by
  unfold SqlHandler.commit_batch
  rcases h : sqlAlterText s.lang_columns s.langs_in_batch with ⟨cols, alters⟩
  exact ⟨rfl, rfl⟩

end Lemmas

/-- Claim C1: for every corpus, the total count of translation-unit rows
persisted by the transactional writer (after the teardown commit) equals
the number of translation units for which the inclusion predicate
returned true — each accepted unit contributes exactly one row-insert to
the pending batch, commits neither drop nor duplicate pending rows, and
the teardown path commits any remaining pending batch.  The proof never
uses the value of `TRANSACTION_SIZE`, so the count is independent of the
batch-size tuning. -/
theorem claim_c1 (req : RequestedLangs) (docs : List (List TranslationUnit))
    (h : (runCorpus (Handler.new req) docs).2 = Except.ok ()) :
    ((runCorpus (Handler.new req) docs).1.drop).db_translation_units.length =
      (docs.map (fun d => (d.filter (fun tu => is_included tu req)).length)).sum := by
  have h1 := (runCorpus_ok_len docs (Handler.new req) h).2
  rw [show (Handler.new req).requested_langs = req from rfl] at h1
  rw [drop_db, h1, show (pcRows (Handler.new req)).length = 0 from rfl, Nat.zero_add]

/-- Claim C1, witness: a two-document corpus under an `Any-of` filter
persists one row per accepted unit. -/
theorem claim_c1_witness :
    ((runCorpus (Handler.new (RequestedLangs.Some ["EN-GB"]))
        [[tuEN, tuPL], [tuEN]]).1.drop).db_translation_units.length =
      (([[tuEN, tuPL], [tuEN]] : List (List TranslationUnit)).map (fun d =>
        (d.filter (fun tu =>
          is_included tu (RequestedLangs.Some ["EN-GB"]))).length)).sum :=
  claim_c1 (RequestedLangs.Some ["EN-GB"]) [[tuEN, tuPL], [tuEN]] (by decide)

/-- Claim C2, counterexample: a unit with two `EN-GB` segments yields a
row-insert operation whose column list names `en_gb` twice, carrying both
segments' contents — not a single first-writer-wins value per language
column. -/
theorem claim_c2_counterexample :
    ((Handler.new RequestedLangs.Unlimited).handle_translation_unit tuDup 0).1.queries =
      [("INSERT INTO translation_units (en_gb,en_gb,sequential_number,document_id) VALUES (?,?,?,?);",
        ["a", "b", "0", "1"])] ∧
    ((Handler.new RequestedLangs.Unlimited).buildInsertMap tuDup.segments).2 =
      Except.ok [("en_gb", "a"), ("en_gb", "b")] ∧
    ¬ ([("en_gb", "a"), ("en_gb", "b")].map Prod.fst).count "en_gb" = 1 := by
  refine ⟨by decide, by decide, by decide⟩

/-- Claim C2 (amended): the insert map built for a unit carries one
`(column, content)` entry per eligible segment, in segment order — a
language occurring in several segments appears once per duplicate with
each duplicate's own content (the first segment's content in the first
position), and nothing is deduplicated or overwritten while building the
operation. -/
theorem claim_c2_amended (s : Handler) (tu : TranslationUnit) (s' : Handler)
    (pairs : List (String × String))
    (h : s.buildInsertMap tu.segments = (s', Except.ok pairs)) :
    pairs = (tu.segments.filter (fun seg => s.lang_is_eligible seg.lang)).map
      (fun seg => (normalize_lang_code seg.lang, seg.content)) :=
  bim_ok_pairs tu.segments s s' pairs h

/-- Claim C2, witness: the duplicate-language unit's insert map is
exactly one entry per segment. -/
theorem claim_c2_witness :
    [("en_gb", "a"), ("en_gb", "b")] =
      (tuDup.segments.filter (fun seg =>
        (Handler.new RequestedLangs.Unlimited).lang_is_eligible seg.lang)).map
        (fun seg => (normalize_lang_code seg.lang, seg.content)) :=
  claim_c2_amended (Handler.new RequestedLangs.Unlimited) tuDup
    { Handler.new RequestedLangs.Unlimited with
      language_columns_in_db := ["en_gb"], valid_lang_codes := ["en_gb"] }
    [("en_gb", "a"), ("en_gb", "b")] (by decide)

/-- Claim C3, counterexample: under the `Any-of` variant with an empty
requested-language set the inclusion predicate returns `false` for a unit
with an `EN-GB` segment — not `true` as claimed. -/
theorem claim_c3_counterexample :
    tuEN.contains_any_lang (RequestedLangs.Some []) = false ∧
    is_included tuEN (RequestedLangs.Some []) = false := by
  exact ⟨by decide, by decide⟩

/-- Claim C3 (amended): under the `Any-of` variant with an empty
requested-language set the inclusion predicate returns `false` for every
translation unit — the empty `Any-of` set excludes everything. -/
theorem claim_c3_amended (tu : TranslationUnit) :
    tu.contains_any_lang (RequestedLangs.Some []) = false := rfl

/-- Claim C4, counterexample: under the filter `Any-of {EN-GB}`, a unit
with an `EN-GB` segment and a second segment whose code `X` cannot be
normalized to a valid column identifier is handled successfully and a row
for it is appended to the pending batch — the invalid code is skipped by
the eligibility check before validation, so the whole unit's write is not
rejected. -/
theorem claim_c4_counterexample :
    langCodeMatches (normalize_lang_code "X") = false ∧
    ((Handler.new (RequestedLangs.Some ["EN-GB"])).handle_translation_unit
      tuMixed 0).2 = Except.ok () ∧
    ((Handler.new (RequestedLangs.Some ["EN-GB"])).handle_translation_unit
      tuMixed 0).1.queries.length = 1 := by
  refine ⟨by decide, by decide, by decide⟩

/-- Claim C4 (amended): if any *eligible* segment of a handled unit has a
language code that cannot be normalized into an identifier matching the
column-naming grammar, then handling the unit fails with an error and no
row for it is appended to the pending batch (given that every memoized
code in `valid_lang_codes` passed the grammar, as holds for every
reachable state). -/
theorem claim_c4_amended (s : Handler) (tu : TranslationUnit) (n : Nat)
    (hcache : cacheOk s)
    (hbad : ∃ seg ∈ tu.segments, s.lang_is_eligible seg.lang = true ∧
      langCodeMatches (normalize_lang_code seg.lang) = false) :
    (∃ e, (s.handle_translation_unit tu n).2 = Except.error e) ∧
    (s.handle_translation_unit tu n).1.queries = s.queries :=
  handle_error_of_bad hcache hbad n

/-- Claim C4, witness: a fresh unlimited writer rejects a unit whose only
segment carries the invalid code `X`, appending nothing. -/
theorem claim_c4_witness :
    (∃ e, ((Handler.new RequestedLangs.Unlimited).handle_translation_unit
      tuBad 0).2 = Except.error e) ∧
    ((Handler.new RequestedLangs.Unlimited).handle_translation_unit
      tuBad 0).1.queries = (Handler.new RequestedLangs.Unlimited).queries :=
  claim_c4_amended (Handler.new RequestedLangs.Unlimited) tuBad 0
    (fun c hc => absurd hc (List.not_mem_nil c))
    ⟨⟨"X", "bad"⟩, by decide, by decide, by decide⟩

/-- Claim C5, counterexample: under the filter `Any-of {EN-GB}`, a
three-unit document whose middle unit is Polish-only persists sequence
numbers `0, 2` — not a gapless zero-based sequence. -/
theorem claim_c5_counterexample :
    (runDocument (Handler.new (RequestedLangs.Some ["EN-GB"]))
      [tuEN, tuPL, tuEN]).2 = Except.ok () ∧
    (pcRows ((runDocument (Handler.new (RequestedLangs.Some ["EN-GB"]))
      [tuEN, tuPL, tuEN]).1.drop)).map seqParam = ["0", "2"] ∧
    ¬ (pcRows ((runDocument (Handler.new (RequestedLangs.Some ["EN-GB"]))
        [tuEN, tuPL, tuEN]).1.drop)).map seqParam =
      (List.range (pcRows ((runDocument (Handler.new (RequestedLangs.Some ["EN-GB"]))
        [tuEN, tuPL, tuEN]).1.drop)).length).map toString := by
  refine ⟨by decide, by decide, by decide⟩

/-- Claim C5 (amended): each persisted row's sequence number equals its
unit's zero-based position in the parsed body (truncated to `u32` by the
cast in `main`), so persisted sequence numbers are strictly increasing in
document order; they form a gapless zero-based sequence only when every
unit of the document is accepted (under a filter, rejected positions
leave gaps). -/
theorem claim_c5_amended (req : RequestedLangs) (tus : List TranslationUnit)
    (h : (runDocument (Handler.new req) tus).2 = Except.ok ()) :
    (pcRows ((runDocument (Handler.new req) tus).1.drop)).map seqParam =
      (tus.enum.filter (fun p => is_included p.2 req)).map
        (fun p => toString (p.1 % 2 ^ 32)) := by
  have h1 := (runDocAux_rows tus (Handler.new req) 0 h).2
  rw [show (Handler.new req).requested_langs = req from rfl] at h1
  have hdrop : pcRows ((runDocument (Handler.new req) tus).1.drop) =
      pcRows ((runDocument (Handler.new req) tus).1) := commit_pcRows _
  rw [hdrop, show runDocument (Handler.new req) tus =
    runDocAux (Handler.new req) tus 0 from rfl, h1]
  rfl

/-- Claim C5, witness: the amended statement at the three-unit filtered
document. -/
theorem claim_c5_witness :
    (pcRows ((runDocument (Handler.new (RequestedLangs.Some ["EN-GB"]))
      [tuEN, tuPL, tuEN]).1.drop)).map seqParam =
      (([tuEN, tuPL, tuEN] : List TranslationUnit).enum.filter
        (fun p => is_included p.2 (RequestedLangs.Some ["EN-GB"]))).map
        (fun p => toString (p.1 % 2 ^ 32)) :=
  claim_c5_amended (RequestedLangs.Some ["EN-GB"]) [tuEN, tuPL, tuEN] (by decide)

/-- Claim C6, counterexample: the transactional writer's `handle` commits
only when the pending batch strictly exceeds `TRANSACTION_SIZE`
(`queries.len() > TRANSACTION_SIZE`), so after handling exactly
`TRANSACTION_SIZE` units the pending batch still holds a full threshold's
worth of row-inserts when `handle` returns — refuting "the pending batch
never still holds a full threshold's worth when handle returns". -/
theorem claim_c6_counterexample :
    (runDocument (Handler.new RequestedLangs.Unlimited)
      (List.replicate TRANSACTION_SIZE tuEN)).2 = Except.ok () ∧
    (runDocument (Handler.new RequestedLangs.Unlimited)
      (List.replicate TRANSACTION_SIZE tuEN)).1.queries.length = TRANSACTION_SIZE := by
  have hrep : List.replicate TRANSACTION_SIZE tuEN = tuEN :: List.replicate 19999 tuEN := by
    rw [show TRANSACTION_SIZE = 19999 + 1 from rfl, List.replicate_succ]
  have hfirst : (Handler.new RequestedLangs.Unlimited).handle_translation_unit
      tuEN (0 % 2 ^ 32) = (s1warm, Except.ok ()) := by decide
  have hstep : runDocAux (Handler.new RequestedLangs.Unlimited)
      (tuEN :: List.replicate 19999 tuEN) 0 =
      runDocAux s1warm (List.replicate 19999 tuEN) (0 + 1) := by
    rw [runDocAux_cons, if_pos (by decide), hfirst]
  have hw : Warm s1warm := ⟨rfl, ⟨1, by decide⟩, by decide, by decide⟩
  obtain ⟨hok, hlen⟩ := warm_run 19999 s1warm (0 + 1) hw (by decide)
  rw [runDocument_eq, hrep, hstep]
  exact ⟨hok, hlen.trans (by decide)⟩

/-- Claim C6 (amended): the transactional writer commits and clears the
batch exactly when the freshly pushed row makes the batch strictly exceed
`TRANSACTION_SIZE`; hence after `handle` returns the batch holds at most
`TRANSACTION_SIZE` row-inserts (possibly exactly a full threshold's
worth).  The flat-script writer commits exactly when its batch reaches
`INSERT_SIZE`, so its batch stays strictly below its threshold. -/
theorem claim_c6_amended :
    (∀ (s : Handler) (tu : TranslationUnit) (n : Nat),
      (s.handle_translation_unit tu n).2 = Except.ok () →
      (s.queries.length + 1 > TRANSACTION_SIZE →
        (s.handle_translation_unit tu n).1.queries = []) ∧
      (s.queries.length + 1 ≤ TRANSACTION_SIZE →
        (s.handle_translation_unit tu n).1.queries.length = s.queries.length + 1) ∧
      (s.queries.length ≤ TRANSACTION_SIZE →
        (s.handle_translation_unit tu n).1.queries.length ≤ TRANSACTION_SIZE)) ∧
    (∀ (s : SqlHandler) (tu : TranslationUnit) (n : Nat),
      (s.incoming_batch.length + 1 = INSERT_SIZE →
        (s.handle tu n).1.incoming_batch = []) ∧
      (s.incoming_batch.length < INSERT_SIZE →
        (s.handle tu n).1.incoming_batch.length < INSERT_SIZE)) := by
  constructor
  · intro s tu n h
    rcases handle_cases s tu n with ⟨e, s2, hc, hh⟩ | ⟨q, s2, hc, hh⟩
    · rw [hh] at h; simp at h
    · have hq2 : s2.queries = s.queries := by
        have h1 := create_dbView (s.insert_document tu) tu n
        rw [hc] at h1
        exact ((dbView_eq_iff.mp h1).1).trans (insert_document_fields s tu).1

      refine ⟨?_, ?_, ?_⟩
      · intro hgt
        rw [hh, if_pos (by simp only [List.length_append, List.length_singleton, hq2]; omega)]
        exact (commit_fields _).1
      · intro hle
        rw [hh, if_neg (by simp only [List.length_append, List.length_singleton, hq2]; omega)]
        simp [List.length_append, hq2]
      · intro hle
        by_cases hcond : s.queries.length + 1 > TRANSACTION_SIZE
        · rw [hh, if_pos (by simp only [List.length_append, List.length_singleton, hq2]; omega)]
          rw [show (Handler.commit_translation_units { s2 with queries := s2.queries ++ [q] },
            (Except.ok () : Except String Unit)).1 =
            Handler.commit_translation_units { s2 with queries := s2.queries ++ [q] } from rfl]
          rw [(commit_fields _).1]
          simp
        · rw [hh, if_neg (by simp only [List.length_append, List.length_singleton, hq2]; omega)]
          simp only [List.length_append, List.length_singleton, hq2]
          omega
  · intro s tu n
    unfold SqlHandler.handle
    dsimp only
    constructor
    · intro hlen
      rw [if_pos (by
        simp only [List.length_append, List.length_singleton]
        exact Nat.beq_eq_true_eq _ _ |>.mpr hlen)]
      exact (sql_commit_batch_state _).1
    · intro hlt
      by_cases hc : (s.incoming_batch ++ [(tu, n)]).length = INSERT_SIZE
      · rw [if_pos (by simpa using hc)]
        rw [(sql_commit_batch_state _).1]
        simp [INSERT_SIZE]
      · rw [if_neg (by simpa using hc)]
        simp only [List.length_append, List.length_singleton]
        simp only [List.length_append, List.length_singleton] at hc
        omega

/-- Claim C6, witness: a fresh writer's first `handle` leaves one pending
row-insert. -/
theorem claim_c6_witness :
    ((Handler.new RequestedLangs.Unlimited).handle_translation_unit tuEN 0).1.queries.length =
      (Handler.new RequestedLangs.Unlimited).queries.length + 1 :=
  (claim_c6_amended.1 (Handler.new RequestedLangs.Unlimited) tuEN 0 (by decide)).2.1 (by decide)

/-- Claim C7: the transactional writer's commit with an empty batch is a
no-op on the handler state, but the flat-script sibling's `commit_batch`
(also run unconditionally by its `Drop` teardown) with an empty batch is
not: it emits the malformed statement
`INSERT INTO translation_units (sequential_number, document_id, ) VALUES ;`
instead of no output text. -/
theorem claim_c7_flat_flush_not_noop :
    (Handler.new RequestedLangs.Unlimited).commit_translation_units =
      Handler.new RequestedLangs.Unlimited ∧
    SqlHandler.commit_batch ⟨[], [], []⟩ =
      (⟨[], [], []⟩,
        "INSERT INTO translation_units (sequential_number, document_id, ) VALUES ;\n") ∧
    SqlHandler.drop ⟨[], [], []⟩ =
      (⟨[], [], []⟩,
        "INSERT INTO translation_units (sequential_number, document_id, ) VALUES ;\n") ∧
    ¬ ("INSERT INTO translation_units (sequential_number, document_id, ) VALUES ;\n" = "") := by
  refine ⟨by decide, by decide, by decide, by decide⟩

/-- Claim C8: after a successful run, the `documents` table holds the
distinct resolvable document names of the accepted units in
first-occurrence order (one row per name, created only the first time the
name is handled), the cache maps each name to a unique surrogate id, and
every persisted row's `document_id` parameter is the cached id of its
unit's document name — so two accepted units with the same name reference
the same surrogate id. -/
theorem claim_c8 (req : RequestedLangs) (tus : List TranslationUnit)
    (h : (runDocument (Handler.new req) tus).2 = Except.ok ()) :
    ((runDocument (Handler.new req) tus).1.db_documents.map Prod.snd =
      dedupFirst (acceptedNames req tus)) ∧
    ((runDocument (Handler.new req) tus).1.db_documents.length =
      (acceptedNames req tus).dedup.length) ∧
    (∀ (nm : String) (i j : Nat),
      (nm, i) ∈ (runDocument (Handler.new req) tus).1.docs_in_db →
      (nm, j) ∈ (runDocument (Handler.new req) tus).1.docs_in_db → i = j) ∧
    ((pcRows (runDocument (Handler.new req) tus).1).map docIdParam =
      (tus.filter (fun tu => is_included tu req)).map
        (fun tu => toString
          ((((runDocument (Handler.new req) tus).1).docsLookup
            (tu.doc_name.getD "")).getD 0))) := by
  have hinv0 : docsInv (Handler.new req) := ⟨rfl, List.nodup_nil⟩
  have hrun : runDocument (Handler.new req) tus = runDocAux (Handler.new req) tus 0 := rfl
  obtain ⟨hinvf, hnames⟩ := runDocAux_names tus (Handler.new req) 0 h hinv0
  rw [show (Handler.new req).requested_langs = req from rfl] at hnames
  have hdocids := runDocAux_docids tus (Handler.new req) 0 h hinv0
  rw [show (Handler.new req).requested_langs = req from rfl] at hdocids
  refine ⟨?_, ?_, ?_, ?_⟩
  · rw [hrun, hnames]
    rfl
  · have h1 : (runDocAux (Handler.new req) tus 0).1.db_documents.length =
        ((runDocAux (Handler.new req) tus 0).1.db_documents.map Prod.snd).length :=
      (List.length_map _ _).symm
    rw [hrun, h1, hnames]
    exact length_dedupFirst _
  · intro nm i j hi hj
    rw [hrun] at hi hj
    exact docsInv_functional hinvf nm i j hi hj
  · rw [hrun, hdocids]
    rfl

/-- Claim C8, witness: three units across two documents (`D` twice, `E`
once) under the unlimited filter. -/
theorem claim_c8_witness :
    ((runDocument (Handler.new RequestedLangs.Unlimited)
        [tuEN, tuDocE, tuPL]).1.db_documents.map Prod.snd =
      dedupFirst (acceptedNames RequestedLangs.Unlimited [tuEN, tuDocE, tuPL])) ∧
    ((runDocument (Handler.new RequestedLangs.Unlimited)
        [tuEN, tuDocE, tuPL]).1.db_documents.length =
      (acceptedNames RequestedLangs.Unlimited [tuEN, tuDocE, tuPL]).dedup.length) ∧
    (∀ (nm : String) (i j : Nat),
      (nm, i) ∈ (runDocument (Handler.new RequestedLangs.Unlimited)
        [tuEN, tuDocE, tuPL]).1.docs_in_db →
      (nm, j) ∈ (runDocument (Handler.new RequestedLangs.Unlimited)
        [tuEN, tuDocE, tuPL]).1.docs_in_db → i = j) ∧
    ((pcRows (runDocument (Handler.new RequestedLangs.Unlimited)
        [tuEN, tuDocE, tuPL]).1).map docIdParam =
      (([tuEN, tuDocE, tuPL] : List TranslationUnit).filter
        (fun tu => is_included tu RequestedLangs.Unlimited)).map
        (fun tu => toString
          ((((runDocument (Handler.new RequestedLangs.Unlimited)
            [tuEN, tuDocE, tuPL]).1).docsLookup (tu.doc_name.getD "")).getD 0))) :=
  claim_c8 RequestedLangs.Unlimited [tuEN, tuDocE, tuPL] (by decide)

/-- Claim C9: under an `Any-of` or `All-of` filter with requested set
`L`, building a unit's row-insert operation gives exactly the same result
(state and operation) as building it for the unit with every segment
whose language is outside `L` removed — ineligible segments are skipped
before normalization, so their content is never written, their language
never creates a column, and their (possibly invalid) code never triggers
a validation error. -/
theorem claim_c9 (s : Handler) (tu : TranslationUnit) (n : Nat) (L : List String)
    (h : s.requested_langs = RequestedLangs.Some L ∨
      s.requested_langs = RequestedLangs.Each L) :
    s.create_translation_unit_insert_query
      ⟨tu.props, tu.segments.filter (fun seg => L.contains seg.lang)⟩ n =
    s.create_translation_unit_insert_query tu n := by
  unfold Handler.create_translation_unit_insert_query
  rw [show (⟨tu.props, tu.segments.filter (fun seg => L.contains seg.lang)⟩ :
      TranslationUnit).doc_name = tu.doc_name from rfl,
    show (⟨tu.props, tu.segments.filter (fun seg => L.contains seg.lang)⟩ :
      TranslationUnit).segments = tu.segments.filter (fun seg => L.contains seg.lang) from rfl,
    bim_filter tu.segments s L h]

/-- Claim C9, witness: with `Any-of {EN-GB}`, dropping the ineligible
invalid-code segment of `tuMixed` changes nothing about the built
operation (in particular the invalid code raises no error). -/
theorem claim_c9_witness :
    (Handler.new (RequestedLangs.Some ["EN-GB"])).create_translation_unit_insert_query
      ⟨tuMixed.props, tuMixed.segments.filter (fun seg => ["EN-GB"].contains seg.lang)⟩ 0 =
    (Handler.new (RequestedLangs.Some ["EN-GB"])).create_translation_unit_insert_query
      tuMixed 0 :=
  claim_c9 (Handler.new (RequestedLangs.Some ["EN-GB"])) tuMixed 0 ["EN-GB"] (Or.inl rfl)

/-- Claim C10: under the unlimited filter, handling a unit that contains
a segment with an empty language code (what the parser assigns when a
`tuv` has no `lang` attribute) fails — the empty code cannot pass the
column-identifier grammar, the writer returns an error, and the
`handle` wrapper aborts the run (the run over any document starting with
that unit stops with the error). -/
theorem claim_c10 (s : Handler) (tu : TranslationUnit) (n : Nat)
    (hU : s.requested_langs = RequestedLangs.Unlimited) (hcache : cacheOk s)
    (hseg : ∃ seg ∈ tu.segments, seg.lang = "") :
    (∃ e, (s.handle_translation_unit tu n).2 = Except.error e) ∧
    (∀ (rest : List TranslationUnit) (i : Nat),
      ∃ e, (runDocAux s (tu :: rest) i).2 = Except.error e) := by
  have hbad : ∃ seg ∈ tu.segments, s.lang_is_eligible seg.lang = true ∧
      langCodeMatches (normalize_lang_code seg.lang) = false := by
    obtain ⟨seg, hm, hl⟩ := hseg
    refine ⟨seg, hm, ?_, ?_⟩
    · unfold Handler.lang_is_eligible; rw [hU]
    · rw [hl]; decide
  refine ⟨(handle_error_of_bad hcache hbad n).1, fun rest i => ?_⟩
  exact handle_error_run s hU (handle_error_of_bad hcache hbad (i % 2 ^ 32)).1

/-- Claim C10, witness: a fresh unlimited writer rejects the unit whose
only segment lacks a language code, and the run over the one-unit
document aborts. -/
theorem claim_c10_witness :
    (∃ e, ((Handler.new RequestedLangs.Unlimited).handle_translation_unit
      tuNoLang 0).2 = Except.error e) ∧
    (∃ e, (runDocAux (Handler.new RequestedLangs.Unlimited) [tuNoLang] 0).2 =
      Except.error e) := by
  have h := claim_c10 (Handler.new RequestedLangs.Unlimited) tuNoLang 0 rfl
    (fun c hc => absurd hc (List.not_mem_nil c)) ⟨⟨"", "y"⟩, by decide, by decide⟩
  exact ⟨h.1, h.2 [] 0⟩

end DGT

